import Mathlib

/-!
Verification of the PLINK BED transcoding core of `pandas-plink`
(`src/pandas_plink/_bed_reader.c` and `src/pandas_plink/_bed_writer.c`).

The two C files are embedded shallowly:

* machine integers (`uint64_t`, `uint8_t`) become `Nat`; all the C arithmetic
  on them that matters here (offsets, shifts, masks) stays far below `2 ^ 64`
  for any realizable file, so no wrap-around modelling is needed;
* a file is a `List Nat` of byte values; a missing file is `none`;
* the caller-provided output buffer `uint64_t *out` is a function
  `Nat → Nat` from flat element index to stored value, mutated by explicit
  functional update;
* `fopen`/`fread` failure surfaces as `Except BedError`; the output buffer is
  returned alongside the status because the C routine mutates it in place even
  on calls that end in an error.
-/

/-- Functional update of a flat buffer: `out[i] = v`. -/
def updateFn (out : Nat → Nat) (i v : Nat) : Nat → Nat :=
  fun k => if k = i then v else out k

/-- The per-byte bit trick of `read_bed_chunk` (`_bed_reader.c`, lines 82-88):
`b0 = b & 0x55; b1 = (b & 0xAA) >> 1; p0 = b0 ^ b1;
p1 = ((b0 | b1) & b0) << 1; p0 |= p1`.  The result holds the four decoded
2-bit codes of the packed byte `b`, code of column `i` at bits `2i, 2i+1`.
(The C locals are `char`; when `char` is signed the repeated `p0 >>= 2`
sign-extends, but only bits at positions `≥ 2` are polluted and every store
masks with `& 3`, so the logical-shift model below yields the same stores.) -/
def decodeByte (b : Nat) : Nat :=
  let b0 := b &&& 0x55
  let b1 := (b &&& 0xAA) >>> 1
  let p0 := b0 ^^^ b1
  let p1 := ((b0 ||| b1) &&& b0) <<< 1
  p0 ||| p1

/-- The writer's remap (`_bed_writer.c`, `convert`): natural code `v` to raw
2-bit code placed at bits 6-7.  `~y` of the C source is taken `&` against the
single-bit `x`, so for `y ∈ {0,1}` it acts as `1 - y`. -/
def convert (v : Nat) : Nat :=
  let x := (v >>> 1) &&& 1
  let y := (v >>> 0) &&& 1
  let new_x := (x &&& (1 - y)) ||| ((1 - x) &&& y)
  let new_y := x
  ((new_x <<< 1) ||| new_y) <<< 6

/-- The decoder's per-pair remap: raw on-disk 2-bit code to natural code
(decode a byte holding `v` in its lowest pair, read that pair back). -/
def decode_remap (v : Nat) : Nat := decodeByte v &&& 3

/-- The writer's per-value remap: natural code to raw on-disk 2-bit code
(`convert` places the raw code at bits 6-7, so shift it back down). -/
def convert_remap (v : Nat) : Nat := convert v >>> 6

/-- One full 4-column group of `write_bed_chunk` (`_bed_writer.c`, lines
62-71): `byte = convert(d0); byte >>= 2; byte |= convert(d1); ...` leaves the
raw code of the group's first column in bits 0-1, its last in bits 6-7. -/
def packFullGroup (d0 d1 d2 d3 : Nat) : Nat :=
  let byte := convert d0
  let byte := byte >>> 2
  let byte := byte ||| convert d1
  let byte := byte >>> 2
  let byte := byte ||| convert d2
  let byte := byte >>> 2
  let byte := byte ||| convert d3
  byte

/-- The final partial group of `write_bed_chunk` (`_bed_writer.c`, lines
78-87): accumulate the `ncols % 4` remaining codes, then
`byte >>= 2 * (4 - ncols % 4)` so they occupy the low-order pairs. -/
def packPartialGroup (ds : List Nat) : Nat :=
  (ds.foldl (fun byte d => (byte >>> 2) ||| convert d) 0) >>> (2 * (4 - ds.length))

/-- The bytes `write_bed_chunk` emits for one row whose natural codes are
`get 0, …, get (ncols - 1)`: the full groups at columns `4g`
(`g < ncols / 4`), then one partial byte when `ncols % 4 ≠ 0`. -/
def writeRowBytes (ncols : Nat) (get : Nat → Nat) : List Nat :=
  (List.range (ncols / 4)).map
    (fun g => packFullGroup (get (4 * g)) (get (4 * g + 1)) (get (4 * g + 2)) (get (4 * g + 3)))
  ++ (if ncols % 4 = 0 then []
      else [packPartialGroup ((List.range (ncols % 4)).map (fun i => get (ncols - ncols % 4 + i)))])

/-- The byte sequence `write_bed_chunk(filepath, ncols, row_chunk, data,
strides)` appends: row `r` reads element `c` at `data[r*strides[0] +
c*strides[1]]` and contributes `ceil(ncols/4)` bytes. -/
def write_bed_chunk (ncols row_chunk : Nat) (data : Nat → Nat) (s0 s1 : Nat) : List Nat :=
  ((List.range row_chunk).map
    (fun r => writeRowBytes ncols (fun c => data (r * s0 + c * s1)))).flatten

/-- Models `write_bed_header(filepath, major)`: `fwrite` of the little-endian
`uint16_t` `0x1b6c` then the mode byte, into a freshly truncated file. -/
def write_bed_header (major : Nat) : List Nat :=
  let magic_number := 0x1b6c
  [magic_number % 256, (magic_number / 256) % 256, major % 256]

/-- A `write_bed_chunk` call against a file opened in append mode (`"ab"`):
the file afterwards is the prior content followed by the bytes the call
managed to `fwrite` (`written` truncates the emitted stream when an `fwrite`
fails mid-call; on success `written` is at least the stream's length). -/
def write_bed_chunk_file (prior : List Nat) (ncols row_chunk : Nat) (data : Nat → Nat)
    (s0 s1 written : Nat) : List Nat :=
  prior ++ (write_bed_chunk ncols row_chunk data s0 s1).take written

/-- Error outcomes of the file-backed decoder (`_bed_reader.c`). -/
inductive BedError where
  | openFailure : BedError
  | unexpectedEndOfFile : BedError
deriving DecidableEq

/-- The column loop of `read_bed_chunk` for one row (`_bed_reader.c`, lines
80-97), with `j = c - col_start`: byte `buff[j/4]` is loaded, decoded with the
bit trick, and its pair `j % 4` is stored at
`out[(r - row_start)*strides[0] + j*strides[1]]`.  (The source loads each
byte once and shifts `p0` right by 2 between the up-to-4 stores it feeds;
since `col_start` stays fixed inside the loop, the pair consumed at column
offset `j` is exactly pair `j % 4` of byte `j / 4`.) -/
def decodeRowStore (buff : List Nat) (ncolw rIdx s0 s1 : Nat) (out : Nat → Nat) : Nat → Nat :=
  (List.range ncolw).foldl
    (fun o j => updateFn o (rIdx * s0 + j * s1) ((decodeByte (buff.getD (j / 4) 0) >>> (2 * (j % 4))) &&& 3))
    out

/-- The row loop of `read_bed_chunk`: process rows `r, r+1, …` (`n` of them
remain).  Each row seeks to `3 + r*row_size + col_start/4` and `fread`s
`row_chunk = ceil((col_end-col_start)/4)` bytes; a short read hits
end-of-file and aborts with `unexpectedEndOfFile` (when `row_chunk = 0` the
`fread` returns 0 with neither `feof` nor `ferror` set and the row is a
no-op).  The output buffer reached so far is returned even on failure. -/
def readRowsAux (file : List Nat) (row_size row_start col_start col_end s0 s1 : Nat) :
    Nat → Nat → (Nat → Nat) → Except BedError Unit × (Nat → Nat)
  | 0, _, out => (Except.ok (), out)
  | n + 1, r, out =>
    let row_chunk := (col_end - col_start + 3) / 4
    let offset := 3 + r * row_size + col_start / 4
    if row_chunk = 0 ∨ offset + row_chunk ≤ file.length then
      readRowsAux file row_size row_start col_start col_end s0 s1 n (r + 1)
        (decodeRowStore ((file.drop offset).take row_chunk) (col_end - col_start)
          (r - row_start) s0 s1 out)
    else (Except.error BedError.unexpectedEndOfFile, out)

/-- Models `read_bed_chunk(filepath, nrows, ncols, row_start, col_start,
row_end, col_end, out, strides)`: `none` models a path `fopen` cannot open.
Returns the status and the (possibly partially) mutated output buffer.
(`nrows` is accepted but, as in the source, never read.) -/
def read_bed_chunk (file? : Option (List Nat)) (nrows ncols row_start col_start row_end col_end : Nat)
    (out : Nat → Nat) (s0 s1 : Nat) : Except BedError Unit × (Nat → Nat) :=
  match file? with
  | none => (Except.error BedError.openFailure, out)
  | some file =>
    let row_size := (ncols + 3) / 4
    readRowsAux file row_size row_start col_start col_end s0 s1 (row_end - row_start) row_start out

/-- The element `read_bed_chunk` decodes for absolute matrix position
`(r, c)` of a file with `ncols` columns: pair `c % 4` of the decoded byte at
offset `3 + r * ceil(ncols/4) + c/4`. -/
def bedElement (file : List Nat) (ncols r c : Nat) : Nat :=
  (decodeByte (file.getD (3 + r * ((ncols + 3) / 4) + c / 4) 0) >>> (2 * (c % 4))) &&& 3

/-- Byte width of `uint64_t` on every platform this code compiles on
(`CHAR_BIT = 8`, `uint64_t` exactly 64 bits). -/
def sizeof_uint64_t : Nat := 8

/-- Byte width of `char` (`sizeof(char)` is 1 by definition in C). -/
def sizeof_char : Nat := 1

/-- The conjunction of the three `assert`s at the entry of `read_bed_chunk`
(`_bed_reader.c`, lines 31-33). -/
def read_bed_chunk_asserts (col_start : Nat) : Prop :=
  sizeof_uint64_t = 4 ∧ sizeof_char = 1 ∧ col_start % 4 = 0

/-! ## Basic buffer lemmas -/

theorem updateFn_same (out : Nat → Nat) (i v : Nat) : updateFn out i v i = v := by
  simp [updateFn]

theorem updateFn_other (out : Nat → Nat) (i v k : Nat) (h : k ≠ i) :
    updateFn out i v k = out k := by
  simp [updateFn, h]

theorem foldl_update_notin (addr val : Nat → Nat) (a : Nat) :
    ∀ (n : Nat) (out : Nat → Nat), (∀ j, j < n → addr j ≠ a) →
    ((List.range n).foldl (fun o j => updateFn o (addr j) (val j)) out) a = out a := by
  intro n
  induction n with
  | zero => intro out _; rfl
  | succ m ih =>
    intro out h
    rw [List.range_succ, List.foldl_append, List.foldl_cons, List.foldl_nil]
    rw [updateFn_other _ _ _ _ (Ne.symm (h m (Nat.lt_succ_self m)))]
    exact ih out (fun j hj => h j (Nat.lt_succ_of_lt hj))

theorem foldl_update_get (addr val : Nat → Nat) :
    ∀ (n : Nat) (out : Nat → Nat) (j0 : Nat), j0 < n →
    (∀ j, j0 < j → j < n → addr j ≠ addr j0) →
    ((List.range n).foldl (fun o j => updateFn o (addr j) (val j)) out) (addr j0) = val j0 := by
  intro n
  induction n with
  | zero => intro out j0 h _; omega
  | succ m ih =>
    intro out j0 hj0 hu
    rw [List.range_succ, List.foldl_append, List.foldl_cons, List.foldl_nil]
    by_cases hj : j0 = m
    · subst hj; exact updateFn_same _ _ _
    · have hlt : j0 < m := by omega
      rw [updateFn_other _ _ _ _ (Ne.symm (hu m hlt (Nat.lt_succ_self m)))]
      exact ih out j0 hlt (fun j h1 h2 => hu j h1 (Nat.lt_succ_of_lt h2))

theorem foldl_update_bound (addr val : Nat → Nat) (hval : ∀ j, val j < 4) :
    ∀ (n : Nat) (out : Nat → Nat) (a : Nat),
    ((List.range n).foldl (fun o j => updateFn o (addr j) (val j)) out) a = out a ∨
    ((List.range n).foldl (fun o j => updateFn o (addr j) (val j)) out) a < 4 := by
  intro n
  induction n with
  | zero => intro out a; left; rfl
  | succ m ih =>
    intro out a
    rw [List.range_succ, List.foldl_append, List.foldl_cons, List.foldl_nil]
    by_cases ha : a = addr m
    · subst ha; right; rw [updateFn_same]; exact hval m
    · rw [updateFn_other _ _ _ _ ha]; exact ih out a

/-! ## Low-level list access lemmas -/

theorem drop_take_getD (file : List Nat) (o t m : Nat) (hm : m < t) :
    ((file.drop o).take t).getD m 0 = file.getD (o + m) 0 := by
  rw [List.getD_eq_getElem?_getD, List.getD_eq_getElem?_getD]
  rw [List.getElem?_take, if_pos hm, List.getElem?_drop]

/-! ## Behaviour of the decoder's row store -/

theorem decodeRowStore_get (buff : List Nat) (ncolw rIdx s0 s1 : Nat) (out : Nat → Nat)
    (j0 : Nat) (h : j0 < ncolw)
    (hu : ∀ j, j0 < j → j < ncolw → rIdx * s0 + j * s1 ≠ rIdx * s0 + j0 * s1) :
    decodeRowStore buff ncolw rIdx s0 s1 out (rIdx * s0 + j0 * s1)
      = (decodeByte (buff.getD (j0 / 4) 0) >>> (2 * (j0 % 4))) &&& 3 :=
  foldl_update_get (fun j => rIdx * s0 + j * s1)
    (fun j => (decodeByte (buff.getD (j / 4) 0) >>> (2 * (j % 4))) &&& 3) ncolw out j0 h hu

theorem decodeRowStore_frame (buff : List Nat) (ncolw rIdx s0 s1 : Nat) (out : Nat → Nat)
    (a : Nat) (h : ∀ j, j < ncolw → rIdx * s0 + j * s1 ≠ a) :
    decodeRowStore buff ncolw rIdx s0 s1 out a = out a :=
  foldl_update_notin (fun j => rIdx * s0 + j * s1)
    (fun j => (decodeByte (buff.getD (j / 4) 0) >>> (2 * (j % 4))) &&& 3) a ncolw out h

theorem decodeRowStore_bound (buff : List Nat) (ncolw rIdx s0 s1 : Nat) (out : Nat → Nat)
    (a : Nat) :
    decodeRowStore buff ncolw rIdx s0 s1 out a = out a ∨
    decodeRowStore buff ncolw rIdx s0 s1 out a < 4 :=
  foldl_update_bound (fun j => rIdx * s0 + j * s1)
    (fun j => (decodeByte (buff.getD (j / 4) 0) >>> (2 * (j % 4))) &&& 3)
    (fun j => Nat.lt_succ_of_le (Nat.and_le_right)) ncolw out a

/-! ## Behaviour of the decoder's row loop -/

theorem readRowsAux_ok (file : List Nat) (row_size row_start col_start col_end s0 s1 : Nat) :
    ∀ (n r : Nat) (out : Nat → Nat),
    (∀ t, t < n → (col_end - col_start + 3) / 4 = 0 ∨
        3 + (r + t) * row_size + col_start / 4 + (col_end - col_start + 3) / 4 ≤ file.length) →
    (readRowsAux file row_size row_start col_start col_end s0 s1 n r out).1 = Except.ok () := by
  intro n
  induction n with
  | zero => intro r out _; rfl
  | succ m ih =>
    intro r out h
    have h0 := h 0 (Nat.succ_pos m)
    simp only [Nat.add_zero] at h0
    simp only [readRowsAux]
    rw [if_pos h0]
    exact ih (r + 1) _ (fun t ht => by
      have := h (t + 1) (by omega)
      have harr : r + (t + 1) = r + 1 + t := by omega
      rw [harr] at this
      exact this)

theorem readRowsAux_frame (file : List Nat) (row_size row_start col_start col_end s0 s1 : Nat) :
    ∀ (n r : Nat) (out : Nat → Nat) (a : Nat),
    (∀ t, t < n → (col_end - col_start + 3) / 4 = 0 ∨
        3 + (r + t) * row_size + col_start / 4 + (col_end - col_start + 3) / 4 ≤ file.length) →
    (∀ t, t < n → ∀ j, j < col_end - col_start → (r + t - row_start) * s0 + j * s1 ≠ a) →
    (readRowsAux file row_size row_start col_start col_end s0 s1 n r out).2 a = out a := by
  intro n
  induction n with
  | zero => intro r out a _ _; rfl
  | succ m ih =>
    intro r out a hfit ha
    have h0 := hfit 0 (Nat.succ_pos m)
    simp only [Nat.add_zero] at h0
    simp only [readRowsAux]
    rw [if_pos h0]
    rw [ih (r + 1) _ a
      (fun t ht => by
        have := hfit (t + 1) (by omega)
        have harr : r + (t + 1) = r + 1 + t := by omega
        rw [harr] at this; exact this)
      (fun t ht j hj => by
        have := ha (t + 1) (by omega) j hj
        have harr : r + (t + 1) = r + 1 + t := by omega
        rw [harr] at this; exact this)]
    exact decodeRowStore_frame _ _ _ _ _ _ _
      (fun j hj => by
        have := ha 0 (Nat.succ_pos m) j hj
        simpa using this)

theorem readRowsAux_bound (file : List Nat) (row_size row_start col_start col_end s0 s1 : Nat) :
    ∀ (n r : Nat) (out : Nat → Nat) (a : Nat),
    (readRowsAux file row_size row_start col_start col_end s0 s1 n r out).2 a = out a ∨
    (readRowsAux file row_size row_start col_start col_end s0 s1 n r out).2 a < 4 := by
  intro n
  induction n with
  | zero => intro r out a; left; rfl
  | succ m ih =>
    intro r out a
    simp only [readRowsAux]
    by_cases hc : (col_end - col_start + 3) / 4 = 0 ∨
        3 + r * row_size + col_start / 4 + (col_end - col_start + 3) / 4 ≤ file.length
    · rw [if_pos hc]
      rcases ih (r + 1)
        (decodeRowStore ((file.drop (3 + r * row_size + col_start / 4)).take
          ((col_end - col_start + 3) / 4)) (col_end - col_start) (r - row_start) s0 s1 out) a with
        h | h
      · rw [h]
        exact decodeRowStore_bound _ _ _ _ _ _ _
      · right; exact h
    · rw [if_neg hc]; left; rfl

theorem readRowsAux_elem (file : List Nat) (row_size row_start col_start col_end s0 s1 R : Nat)
    (hinj : ∀ i, i < R → ∀ j, j < col_end - col_start →
      ∀ i2, i2 < R → ∀ j2, j2 < col_end - col_start →
      i * s0 + j * s1 = i2 * s0 + j2 * s1 → i = i2 ∧ j = j2) :
    ∀ (n k : Nat) (out : Nat → Nat) (i j : Nat),
    k + n ≤ R → k ≤ i → i < k + n → j < col_end - col_start →
    (∀ t, t < n →
        3 + (row_start + k + t) * row_size + col_start / 4 + (col_end - col_start + 3) / 4
          ≤ file.length) →
    (readRowsAux file row_size row_start col_start col_end s0 s1 n (row_start + k) out).2
        (i * s0 + j * s1)
      = (decodeByte (file.getD (3 + (row_start + i) * row_size + col_start / 4 + j / 4) 0)
          >>> (2 * (j % 4))) &&& 3 := by
  intro n
  induction n with
  | zero => intro k out i j _ _ h _ _; omega
  | succ m ih =>
    intro k out i j hR hki hik hj hfit
    have h0 : 3 + (row_start + k) * row_size + col_start / 4 + (col_end - col_start + 3) / 4
        ≤ file.length := by
      have := hfit 0 (Nat.succ_pos m); simpa using this
    simp only [readRowsAux]
    rw [if_pos (Or.inr h0)]
    have hsub : row_start + k - row_start = k := by omega
    rw [hsub]
    by_cases hik0 : i = k
    · subst hik0
      -- the row just decoded is the target row; later rows do not touch its address
      rw [readRowsAux_frame file row_size row_start col_start col_end s0 s1 m
        (row_start + i + 1) _ (i * s0 + j * s1)
        (fun t ht => by
          right
          have := hfit (t + 1) (by omega)
          have harr : row_start + i + (t + 1) = row_start + i + 1 + t := by omega
          rw [harr] at this; exact this)
        (fun t ht j2 hj2 heq => by
          have hr2 : row_start + i + 1 + t - row_start = i + 1 + t := by omega
          rw [hr2] at heq
          have := hinj (i + 1 + t) (by omega) j2 hj2 i (by omega) j hj heq
          omega)]
      rw [decodeRowStore_get _ _ _ _ _ _ j hj
        (fun j2 h1 h2 heq => by
          have := hinj i (by omega) j2 h2 i (by omega) j hj heq
          omega)]
      rw [drop_take_getD _ _ _ _ (by omega)]
    · have hlt : k < i := by omega
      have harr : readRowsAux file row_size row_start col_start col_end s0 s1 m
            (row_start + k + 1)
          = readRowsAux file row_size row_start col_start col_end s0 s1 m
            (row_start + (k + 1)) := by
        rfl
      rw [harr]
      exact ih (k + 1) _ i j (by omega) (by omega) (by omega) hj
        (fun t ht => by
          have := hfit (t + 1) (by omega)
          have harr2 : row_start + k + (t + 1) = row_start + (k + 1) + t := by omega
          rw [harr2] at this; exact this)

/-- Master characterization of a successful file-backed decode: with the
window in bounds, `col_start` byte-aligned, the file long enough for the
whole packed matrix, and non-aliasing output strides, the call succeeds and
the element stored for window position `(i, j)` is the decoded matrix entry
at absolute position `(row_start + i, col_start + j)`. -/
theorem read_bed_chunk_ok_elem (file : List Nat)
    (nrows ncols row_start col_start row_end col_end : Nat)
    (out0 : Nat → Nat) (s0 s1 : Nat)
    (h4 : col_start % 4 = 0) (hre : row_end ≤ nrows)
    (hcs : col_start ≤ col_end) (hce : col_end ≤ ncols)
    (hlen : 3 + nrows * ((ncols + 3) / 4) ≤ file.length)
    (hinj : ∀ i, i < row_end - row_start → ∀ j, j < col_end - col_start →
      ∀ i2, i2 < row_end - row_start → ∀ j2, j2 < col_end - col_start →
      i * s0 + j * s1 = i2 * s0 + j2 * s1 → i = i2 ∧ j = j2) :
    (read_bed_chunk (some file) nrows ncols row_start col_start row_end col_end out0 s0 s1).1
        = Except.ok () ∧
    ∀ i j, i < row_end - row_start → j < col_end - col_start →
      (read_bed_chunk (some file) nrows ncols row_start col_start row_end col_end out0 s0 s1).2
          (i * s0 + j * s1)
        = bedElement file ncols (row_start + i) (col_start + j) := by
  have hfit : ∀ t, t < row_end - row_start →
      3 + (row_start + t) * ((ncols + 3) / 4) + col_start / 4 + (col_end - col_start + 3) / 4
        ≤ file.length := by
    intro t ht
    have hB : col_start / 4 + (col_end - col_start + 3) / 4 ≤ (ncols + 3) / 4 := by omega
    have h1 : (row_start + t) * ((ncols + 3) / 4) + (ncols + 3) / 4
        ≤ nrows * ((ncols + 3) / 4) := by
      calc (row_start + t) * ((ncols + 3) / 4) + (ncols + 3) / 4
          = (row_start + t + 1) * ((ncols + 3) / 4) := by ring
        _ ≤ nrows * ((ncols + 3) / 4) := Nat.mul_le_mul_right _ (by omega)
    linarith
  constructor
  · exact readRowsAux_ok file ((ncols + 3) / 4) row_start col_start col_end s0 s1
      (row_end - row_start) row_start out0 (fun t ht => Or.inr (hfit t ht))
  · intro i j hi hj
    have helem := readRowsAux_elem file ((ncols + 3) / 4) row_start col_start col_end s0 s1
      (row_end - row_start) hinj (row_end - row_start) 0 out0 i j (by omega) (by omega)
      (by omega) hj (fun t ht => by simpa using hfit t ht)
    have hdiv : col_start / 4 + j / 4 = (col_start + j) / 4 := by omega
    have hmod : j % 4 = (col_start + j) % 4 := by omega
    rw [read_bed_chunk]
    rw [bedElement]
    rw [← hdiv, ← hmod, ← Nat.add_assoc]
    simpa using helem

/-! ## Writer-side structure lemmas -/

theorem writeRowBytes_length (ncols : Nat) (get : Nat → Nat) :
    (writeRowBytes ncols get).length = (ncols + 3) / 4 := by
  rw [writeRowBytes, List.length_append, List.length_map, List.length_range]
  by_cases h : ncols % 4 = 0
  · rw [if_pos h]; simp; omega
  · rw [if_neg h]; simp; omega

theorem flatten_const_length : ∀ (L : List (List Nat)) (sz : Nat),
    (∀ l ∈ L, l.length = sz) → L.flatten.length = L.length * sz := by
  intro L
  induction L with
  | nil => intro sz _; simp
  | cons hd tl ih =>
    intro sz h
    rw [List.flatten_cons, List.length_append, List.length_cons,
      ih sz (fun l hl => h l (List.mem_cons_of_mem hd hl)),
      h hd (List.mem_cons_self hd tl)]
    ring

theorem write_bed_chunk_length (ncols row_chunk : Nat) (data : Nat → Nat) (s0 s1 : Nat) :
    (write_bed_chunk ncols row_chunk data s0 s1).length = row_chunk * ((ncols + 3) / 4) := by
  rw [write_bed_chunk, flatten_const_length _ ((ncols + 3) / 4) (fun l hl => by
    obtain ⟨r, _, rfl⟩ := List.mem_map.mp hl
    exact writeRowBytes_length ncols _)]
  rw [List.length_map, List.length_range]

theorem map_range_getD (n r : Nat) (f : Nat → List Nat) (d : List Nat) (h : r < n) :
    ((List.range n).map f).getD r d = f r := by
  rw [List.getD_eq_getElem?_getD, List.getElem?_map, List.getElem?_range h]
  rfl

theorem flatten_getD (sz : Nat) : ∀ (L : List (List Nat)) (r k : Nat),
    (∀ l ∈ L, l.length = sz) → r < L.length → k < sz →
    L.flatten.getD (r * sz + k) 0 = (L.getD r []).getD k 0 := by
  intro L
  induction L with
  | nil => intro r k _ hr _; simp at hr
  | cons hd tl ih =>
    intro r k hall hr hk
    have hhd : hd.length = sz := hall hd (List.mem_cons_self hd tl)
    rw [List.flatten_cons]
    cases r with
    | zero =>
      rw [Nat.zero_mul, Nat.zero_add, List.getD_append _ _ _ _ (by omega)]
      rfl
    | succ r2 =>
      have hidx : (r2 + 1) * sz + k = hd.length + (r2 * sz + k) := by
        rw [hhd]; ring
      rw [hidx, List.getD_append_right _ _ _ _ (Nat.le_add_right _ _),
        Nat.add_sub_cancel_left]
      have htl : tl.flatten.getD (r2 * sz + k) 0 = (tl.getD r2 []).getD k 0 :=
        ih r2 k (fun l hl => hall l (List.mem_cons_of_mem hd hl))
          (Nat.lt_of_succ_lt_succ hr) hk
      rw [htl]
      rfl

theorem write_bed_chunk_getD (ncols row_chunk : Nat) (data : Nat → Nat) (s0 s1 : Nat)
    (r k : Nat) (hr : r < row_chunk) (hk : k < (ncols + 3) / 4) :
    (write_bed_chunk ncols row_chunk data s0 s1).getD (r * ((ncols + 3) / 4) + k) 0
      = (writeRowBytes ncols (fun c => data (r * s0 + c * s1))).getD k 0 := by
  rw [write_bed_chunk, flatten_getD ((ncols + 3) / 4) _ r k
    (fun l hl => by
      obtain ⟨r2, _, rfl⟩ := List.mem_map.mp hl
      exact writeRowBytes_length ncols _)
    (by rw [List.length_map, List.length_range]; exact hr) hk]
  rw [map_range_getD _ _ _ _ hr]

theorem writeRowBytes_getD_full (ncols : Nat) (get : Nat → Nat) (g : Nat) (hg : g < ncols / 4) :
    (writeRowBytes ncols get).getD g 0
      = packFullGroup (get (4 * g)) (get (4 * g + 1)) (get (4 * g + 2)) (get (4 * g + 3)) := by
  rw [writeRowBytes, List.getD_append _ _ _ _ (by
    rw [List.length_map, List.length_range]; exact hg)]
  rw [List.getD_eq_getElem?_getD, List.getElem?_map, List.getElem?_range hg]
  rfl

theorem writeRowBytes_getD_tailByte (ncols : Nat) (get : Nat → Nat) (h : ncols % 4 ≠ 0) :
    (writeRowBytes ncols get).getD (ncols / 4) 0
      = packPartialGroup ((List.range (ncols % 4)).map (fun i => get (ncols - ncols % 4 + i))) := by
  rw [writeRowBytes, List.getD_append_right _ _ _ _ (by
    rw [List.length_map, List.length_range])]
  rw [List.length_map, List.length_range, Nat.sub_self, if_neg h]
  rfl

/-! ## Byte-level encode/decode facts (finite checks) -/

theorem packFullGroup_decode : ∀ d0 < 4, ∀ d1 < 4, ∀ d2 < 4, ∀ d3 < 4,
    (decodeByte (packFullGroup d0 d1 d2 d3) &&& 3 = d0) ∧
    ((decodeByte (packFullGroup d0 d1 d2 d3) >>> 2) &&& 3 = d1) ∧
    ((decodeByte (packFullGroup d0 d1 d2 d3) >>> 4) &&& 3 = d2) ∧
    ((decodeByte (packFullGroup d0 d1 d2 d3) >>> 6) &&& 3 = d3) := by decide

theorem packPartialGroup_decode1 : ∀ d0 < 4,
    (decodeByte (packPartialGroup [d0]) &&& 3 = d0) ∧
    (packPartialGroup [d0] &&& 3 = convert_remap d0) ∧
    packPartialGroup [d0] < 2 ^ 2 := by decide

theorem packPartialGroup_decode2 : ∀ d0 < 4, ∀ d1 < 4,
    (decodeByte (packPartialGroup [d0, d1]) &&& 3 = d0) ∧
    ((decodeByte (packPartialGroup [d0, d1]) >>> 2) &&& 3 = d1) ∧
    (packPartialGroup [d0, d1] &&& 3 = convert_remap d0) ∧
    ((packPartialGroup [d0, d1] >>> 2) &&& 3 = convert_remap d1) ∧
    packPartialGroup [d0, d1] < 2 ^ 4 := by decide

theorem packPartialGroup_decode3 : ∀ d0 < 4, ∀ d1 < 4, ∀ d2 < 4,
    (decodeByte (packPartialGroup [d0, d1, d2]) &&& 3 = d0) ∧
    ((decodeByte (packPartialGroup [d0, d1, d2]) >>> 2) &&& 3 = d1) ∧
    ((decodeByte (packPartialGroup [d0, d1, d2]) >>> 4) &&& 3 = d2) ∧
    (packPartialGroup [d0, d1, d2] &&& 3 = convert_remap d0) ∧
    ((packPartialGroup [d0, d1, d2] >>> 2) &&& 3 = convert_remap d1) ∧
    ((packPartialGroup [d0, d1, d2] >>> 4) &&& 3 = convert_remap d2) ∧
    packPartialGroup [d0, d1, d2] < 2 ^ 6 := by decide

/-! ## Claim theorems -/

/-- C2 (counterexample): the raw/natural remap is NOT the involutive swap of
codes 1 and 2.  The decoder sends raw 1 to natural 3 (not 2), the writer
sends natural 2 to raw 3 (not 1), and the writer remap applied twice moves 1
to 3 (not back to 1), so the claimed table and the claimed involutivity both
fail at the explicit input 1 (resp. 2). -/
theorem C2_counterexample :
    decode_remap 1 = 3 ∧ convert_remap 2 = 3 ∧ convert_remap (convert_remap 1) = 3 ∧
    ((decode_remap 1 = 2 ∨ convert_remap 2 = 1 ∨ convert_remap (convert_remap 1) = 1)
      ↔ False) := by
  decide

/-- C2 (amended): the decoder remap is the 3-cycle 0↦0, 1↦3, 2↦1, 3↦2 and
the writer remap is its inverse 0↦0, 1↦2, 2↦3, 3↦1; composing them either
way is the identity on {0,1,2,3}, but neither map is an involution and
neither is the 1↔2 swap. -/
theorem C2_remap_tables :
    (decode_remap 0 = 0 ∧ decode_remap 1 = 3 ∧ decode_remap 2 = 1 ∧ decode_remap 3 = 2) ∧
    (convert_remap 0 = 0 ∧ convert_remap 1 = 2 ∧ convert_remap 2 = 3 ∧ convert_remap 3 = 1) ∧
    (decode_remap (convert_remap 0) = 0 ∧ decode_remap (convert_remap 1) = 1 ∧
     decode_remap (convert_remap 2) = 2 ∧ decode_remap (convert_remap 3) = 3) ∧
    (convert_remap (decode_remap 0) = 0 ∧ convert_remap (decode_remap 1) = 1 ∧
     convert_remap (decode_remap 2) = 2 ∧ convert_remap (decode_remap 3) = 3) := by
  decide

/-- C4 (code bug): the entry assertion `sizeof(uint64_t) == 4` of
`read_bed_chunk` is false on every platform the code targets (`uint64_t` is
8 bytes), so with assertions enabled the conjunction of the three entry
assertions fails on every call — here evaluated at the aligned input
`col_start = 0`, where the other two assertions do hold. -/
theorem C4_assert_sizeof_fails :
    (read_bed_chunk_asserts 0 ↔ False) ∧ sizeof_uint64_t = 8 ∧ sizeof_char = 1 ∧
    (0 : Nat) % 4 = 0 := by
  refine ⟨?_, rfl, rfl, rfl⟩
  simp [read_bed_chunk_asserts, sizeof_uint64_t]

/-- C5: a successful `write_bed_header(path, 1)` produces a file of exactly
3 bytes: `0x6c`, `0x1b` (the magic constant, little-endian), then the mode
byte `0x01`. -/
theorem C5_header_bytes :
    write_bed_header 1 = [0x6c, 0x1b, 0x01] ∧ (write_bed_header 1).length = 3 := by
  decide

/-- C9: `write_bed_chunk` appends: after any call (successful or failing
mid-write, `written` being how many emitted bytes reached the file), the
prior file content is intact as a prefix and the new bytes sit entirely
after it. -/
theorem C9_append_preserves_prior (prior : List Nat) (ncols row_chunk : Nat)
    (data : Nat → Nat) (s0 s1 written : Nat) :
    (write_bed_chunk_file prior ncols row_chunk data s0 s1 written).take prior.length
      = prior ∧
    (write_bed_chunk_file prior ncols row_chunk data s0 s1 written).drop prior.length
      = (write_bed_chunk ncols row_chunk data s0 s1).take written := by
  constructor
  · rw [write_bed_chunk_file, List.take_left]
  · rw [write_bed_chunk_file, List.drop_left]

/-- C10: whatever the file bytes (or even a missing file), every cell of the
output buffer after `read_bed_chunk` either still holds its prior value or
holds a stored element, and every stored element is the decoded pair masked
with `& 3`, hence in {0,1,2,3}. -/
theorem C10_output_values_lt_four (file? : Option (List Nat))
    (nrows ncols row_start col_start row_end col_end : Nat)
    (out0 : Nat → Nat) (s0 s1 : Nat) (a : Nat) :
    (read_bed_chunk file? nrows ncols row_start col_start row_end col_end out0 s0 s1).2 a
        = out0 a ∨
    (read_bed_chunk file? nrows ncols row_start col_start row_end col_end out0 s0 s1).2 a
        < 4 := by
  cases file? with
  | none => left; rfl
  | some file =>
    exact readRowsAux_bound file ((ncols + 3) / 4) row_start col_start col_end s0 s1
      (row_end - row_start) row_start out0 a

/-- C3 (counterexample): a file truncated mid-window but after a complete
first row (`ncols = 4`, rows 0 and 1 requested, only row 0's byte `0xE4`
present) makes `read_bed_chunk` fail with `unexpectedEndOfFile`, yet the
output buffer is NOT left unmodified: row 0 was already decoded into it
(cell 1 now holds 3, no longer its prior value 99), refuting the claim that
a failing decode writes no element at all. -/
theorem C3_counterexample :
    ((read_bed_chunk (some [108, 27, 1, 228]) 2 4 0 0 2 4 (fun _ => 99) 4 1).1
       = Except.error BedError.unexpectedEndOfFile) ∧
    (read_bed_chunk (some [108, 27, 1, 228]) 2 4 0 0 2 4 (fun _ => 99) 4 1).2 1 = 3 ∧
    (((read_bed_chunk (some [108, 27, 1, 228]) 2 4 0 0 2 4 (fun _ => 99) 4 1).2 1 = 99)
      ↔ False) := by
  refine ⟨rfl, by decide, by decide⟩

/-- C3 (amended): decoding from a nonexistent path fails with `openFailure`
and leaves the output buffer untouched, and decoding a file already too
short for the first requested row's read fails with `unexpectedEndOfFile`
and leaves the output buffer untouched.  (When the truncation point falls
after some requested rows, those earlier rows remain decoded in the buffer;
only the truncated row and the rows after it are unwritten.) -/
theorem C3_failure_modes (file : List Nat)
    (nrows ncols row_start col_start row_end col_end : Nat)
    (out0 : Nat → Nat) (s0 s1 : Nat)
    (hrow : row_start < row_end) (hcol : col_start < col_end)
    (hshort : file.length <
      3 + row_start * ((ncols + 3) / 4) + col_start / 4 + (col_end - col_start + 3) / 4) :
    (read_bed_chunk none nrows ncols row_start col_start row_end col_end out0 s0 s1
        = (Except.error BedError.openFailure, out0)) ∧
    (read_bed_chunk (some file) nrows ncols row_start col_start row_end col_end out0 s0 s1
        = (Except.error BedError.unexpectedEndOfFile, out0)) := by
  refine ⟨rfl, ?_⟩
  obtain ⟨m, hm⟩ : ∃ m, row_end - row_start = m + 1 := ⟨row_end - row_start - 1, by omega⟩
  simp only [read_bed_chunk]
  rw [hm]
  simp only [readRowsAux]
  rw [if_neg ?neg]
  case neg =>
    generalize row_start * ((ncols + 3) / 4) = P at hshort ⊢
    omega

/-- Witness for `C3_failure_modes`: a 1x4 matrix whose file holds only the
3-byte header, so already row 0's single packed byte is missing. -/
theorem C3_failure_modes_witness :
    (read_bed_chunk none 1 4 0 0 1 4 (fun _ => 99) 4 1
       = (Except.error BedError.openFailure, fun _ => 99)) ∧
    (read_bed_chunk (some [108, 27, 1]) 1 4 0 0 1 4 (fun _ => 99) 4 1
       = (Except.error BedError.unexpectedEndOfFile, fun _ => 99)) :=
  C3_failure_modes [108, 27, 1] 1 4 0 0 1 4 (fun _ => 99) 4 1 (by decide) (by decide)
    (by decide)

/-- C7: for a file holding the complete packed matrix, decoding the
sub-window `[r0,r1) x [c0,c1)` (with `c0` a multiple of 4 and non-aliasing
strides) succeeds and agrees, element by element, with the corresponding
sub-slice of decoding the whole matrix. -/
theorem C7_window_matches_full (file : List Nat)
    (nrows ncols r0 c0 r1 c1 : Nat) (out0 out1 : Nat → Nat) (t0 t1 u0 u1 : Nat)
    (h4 : c0 % 4 = 0) (hr1 : r1 ≤ nrows) (hc0 : c0 ≤ c1) (hc1 : c1 ≤ ncols)
    (hlen : 3 + nrows * ((ncols + 3) / 4) ≤ file.length)
    (hinjW : ∀ i, i < r1 - r0 → ∀ j, j < c1 - c0 →
      ∀ i2, i2 < r1 - r0 → ∀ j2, j2 < c1 - c0 →
      i * t0 + j * t1 = i2 * t0 + j2 * t1 → i = i2 ∧ j = j2)
    (hinjF : ∀ i, i < nrows → ∀ j, j < ncols →
      ∀ i2, i2 < nrows → ∀ j2, j2 < ncols →
      i * u0 + j * u1 = i2 * u0 + j2 * u1 → i = i2 ∧ j = j2) :
    (read_bed_chunk (some file) nrows ncols r0 c0 r1 c1 out0 t0 t1).1 = Except.ok () ∧
    (read_bed_chunk (some file) nrows ncols 0 0 nrows ncols out1 u0 u1).1 = Except.ok () ∧
    ∀ i j, i < r1 - r0 → j < c1 - c0 →
      (read_bed_chunk (some file) nrows ncols r0 c0 r1 c1 out0 t0 t1).2 (i * t0 + j * t1)
        = (read_bed_chunk (some file) nrows ncols 0 0 nrows ncols out1 u0 u1).2
            ((r0 + i) * u0 + (c0 + j) * u1) := by
  obtain ⟨hok1, helem1⟩ := read_bed_chunk_ok_elem file nrows ncols r0 c0 r1 c1 out0 t0 t1
    h4 hr1 hc0 hc1 hlen hinjW
  obtain ⟨hok2, helem2⟩ := read_bed_chunk_ok_elem file nrows ncols 0 0 nrows ncols out1 u0 u1
    rfl (Nat.le_refl nrows) (Nat.zero_le ncols) (Nat.le_refl ncols) hlen hinjF
  refine ⟨hok1, hok2, fun i j hi hj => ?_⟩
  rw [helem1 i j hi hj, helem2 (r0 + i) (c0 + j) (by omega) (by omega)]
  simp

/-- Decoding pair `c % 4` of byte `c / 4` of an encoded row recovers the
row's natural code at column `c`, for codes in {0,1,2,3}. -/
theorem writeRow_decode (ncols : Nat) (get : Nat → Nat) (c : Nat) (hc : c < ncols)
    (hv : ∀ c2, c2 < ncols → get c2 < 4) :
    (decodeByte ((writeRowBytes ncols get).getD (c / 4) 0) >>> (2 * (c % 4))) &&& 3
      = get c := by
  by_cases hA : c / 4 < ncols / 4
  · rw [writeRowBytes_getD_full ncols get (c / 4) hA]
    have h0 : get (4 * (c / 4)) < 4 := hv _ (by omega)
    have h1 : get (4 * (c / 4) + 1) < 4 := hv _ (by omega)
    have h2 : get (4 * (c / 4) + 2) < 4 := hv _ (by omega)
    have h3 : get (4 * (c / 4) + 3) < 4 := hv _ (by omega)
    obtain ⟨hp0, hp1, hp2, hp3⟩ := packFullGroup_decode _ h0 _ h1 _ h2 _ h3
    have hm : c % 4 = 0 ∨ c % 4 = 1 ∨ c % 4 = 2 ∨ c % 4 = 3 := by omega
    rcases hm with hm | hm | hm | hm
    · have he : 4 * (c / 4) = c := by omega
      rw [hm, congrArg get he.symm]
      simpa using hp0
    · have he : 4 * (c / 4) + 1 = c := by omega
      rw [hm, congrArg get he.symm]
      simpa using hp1
    · have he : 4 * (c / 4) + 2 = c := by omega
      rw [hm, congrArg get he.symm]
      simpa using hp2
    · have he : 4 * (c / 4) + 3 = c := by omega
      rw [hm, congrArg get he.symm]
      simpa using hp3
  · have hB : c / 4 = ncols / 4 := by omega
    have hm0 : ncols % 4 ≠ 0 := by omega
    have hcm : c % 4 < ncols % 4 := by omega
    rw [hB, writeRowBytes_getD_tailByte ncols get hm0]
    have hm123 : ncols % 4 = 1 ∨ ncols % 4 = 2 ∨ ncols % 4 = 3 := by omega
    rcases hm123 with hm | hm | hm
    · rw [hm, (by rfl : List.range 1 = [0]), List.map_cons, List.map_nil]
      have hval : get (ncols - 1 + 0) < 4 := hv _ (by omega)
      have hc0 : c % 4 = 0 := by omega
      have he : ncols - 1 + 0 = c := by omega
      rw [hc0, congrArg get he.symm]
      simpa using (packPartialGroup_decode1 _ hval).1
    · rw [hm, (by rfl : List.range 2 = [0, 1]), List.map_cons, List.map_cons, List.map_nil]
      have hv0 : get (ncols - 2 + 0) < 4 := hv _ (by omega)
      have hv1 : get (ncols - 2 + 1) < 4 := hv _ (by omega)
      obtain ⟨hq0, hq1, _⟩ := packPartialGroup_decode2 _ hv0 _ hv1
      have hc01 : c % 4 = 0 ∨ c % 4 = 1 := by omega
      rcases hc01 with hcx | hcx
      · have he : ncols - 2 + 0 = c := by omega
        rw [hcx, congrArg get he.symm]
        simpa using hq0
      · have he : ncols - 2 + 1 = c := by omega
        rw [hcx, congrArg get he.symm]
        simpa using hq1
    · rw [hm, (by rfl : List.range 3 = [0, 1, 2]), List.map_cons, List.map_cons, List.map_cons,
        List.map_nil]
      have hv0 : get (ncols - 3 + 0) < 4 := hv _ (by omega)
      have hv1 : get (ncols - 3 + 1) < 4 := hv _ (by omega)
      have hv2 : get (ncols - 3 + 2) < 4 := hv _ (by omega)
      obtain ⟨hq0, hq1, hq2, _⟩ := packPartialGroup_decode3 _ hv0 _ hv1 _ hv2
      have hc012 : c % 4 = 0 ∨ c % 4 = 1 ∨ c % 4 = 2 := by omega
      rcases hc012 with hcx | hcx | hcx
      · have he : ncols - 3 + 0 = c := by omega
        rw [hcx, congrArg get he.symm]
        simpa using hq0
      · have he : ncols - 3 + 1 = c := by omega
        rw [hcx, congrArg get he.symm]
        simpa using hq1
      · have he : ncols - 3 + 2 = c := by omega
        rw [hcx, congrArg get he.symm]
        simpa using hq2

theorem header_append_getD (major : Nat) (l : List Nat) (X : Nat) :
    (write_bed_header major ++ l).getD (3 + X) 0 = l.getD X 0 := by
  rw [List.getD_append_right _ _ _ _ (by simp [write_bed_header])]
  simp [write_bed_header]

/-- C1: writing a {0,1,2,3}-valued `nrows x ncols` matrix with
`write_bed_header` + `write_bed_chunk` (any data strides) and decoding the
full matrix back with `read_bed_chunk` (any non-aliasing output strides)
succeeds and reproduces every original value; and the decoder remap composed
after the writer remap is the identity on {0,1,2,3}. -/
theorem C1_write_read_roundtrip (nrows ncols : Nat) (data : Nat → Nat)
    (ws0 ws1 rs0 rs1 : Nat) (out0 : Nat → Nat) (major : Nat)
    (hdata : ∀ r, r < nrows → ∀ c, c < ncols → data (r * ws0 + c * ws1) < 4)
    (hinj : ∀ i, i < nrows → ∀ j, j < ncols →
      ∀ i2, i2 < nrows → ∀ j2, j2 < ncols →
      i * rs0 + j * rs1 = i2 * rs0 + j2 * rs1 → i = i2 ∧ j = j2) :
    (read_bed_chunk (some (write_bed_header major ++ write_bed_chunk ncols nrows data ws0 ws1))
        nrows ncols 0 0 nrows ncols out0 rs0 rs1).1 = Except.ok () ∧
    (∀ r, r < nrows → ∀ c, c < ncols →
      (read_bed_chunk (some (write_bed_header major ++ write_bed_chunk ncols nrows data ws0 ws1))
          nrows ncols 0 0 nrows ncols out0 rs0 rs1).2 (r * rs0 + c * rs1)
        = data (r * ws0 + c * ws1)) ∧
    (∀ v, v < 4 → decode_remap (convert_remap v) = v) := by
  have hlen : (write_bed_header major ++ write_bed_chunk ncols nrows data ws0 ws1).length
      = 3 + nrows * ((ncols + 3) / 4) := by
    rw [List.length_append, write_bed_chunk_length]
    simp [write_bed_header]
  obtain ⟨hok, helem⟩ := read_bed_chunk_ok_elem
    (write_bed_header major ++ write_bed_chunk ncols nrows data ws0 ws1)
    nrows ncols 0 0 nrows ncols out0 rs0 rs1 rfl (Nat.le_refl nrows) (Nat.zero_le ncols)
    (Nat.le_refl ncols) (by omega) hinj
  refine ⟨hok, fun r hr c hc => ?_, fun v hv => by
    have : v = 0 ∨ v = 1 ∨ v = 2 ∨ v = 3 := by omega
    rcases this with rfl | rfl | rfl | rfl <;> decide⟩
  have h1 := helem r c (by omega) (by omega)
  rw [h1, bedElement]
  simp only [Nat.zero_add]
  rw [Nat.add_assoc 3 (r * ((ncols + 3) / 4)) (c / 4), header_append_getD]
  rw [write_bed_chunk_getD ncols nrows data ws0 ws1 r (c / 4) hr (by omega)]
  exact writeRow_decode ncols _ c hc (fun c2 hc2 => hdata r hr c2 hc2)

/-- C6: for `ncols % 4 ≠ 0` the writer emits `ceil(ncols/4) = ncols/4 + 1`
bytes per row; in the row's final byte the `ncols % 4` trailing codes occupy
the low-order bit pairs in column order (pair `i` holds the writer remap of
column `ncols - ncols%4 + i`), the unused upper bits are zero, and decoding
each such pair recovers the original trailing value. -/
theorem C6_partial_last_byte (ncols : Nat) (get : Nat → Nat)
    (hm : ncols % 4 ≠ 0) (hv : ∀ c, c < ncols → get c < 4) :
    (writeRowBytes ncols get).length = (ncols + 3) / 4 ∧
    (ncols + 3) / 4 = ncols / 4 + 1 ∧
    (writeRowBytes ncols get).getD (ncols / 4) 0 < 2 ^ (2 * (ncols % 4)) ∧
    ∀ i, i < ncols % 4 →
      (((writeRowBytes ncols get).getD (ncols / 4) 0 >>> (2 * i)) &&& 3
         = convert_remap (get (ncols - ncols % 4 + i)) ∧
       (decodeByte ((writeRowBytes ncols get).getD (ncols / 4) 0) >>> (2 * i)) &&& 3
         = get (ncols - ncols % 4 + i)) := by
  refine ⟨writeRowBytes_length ncols get, by omega, ?_, ?_⟩ <;>
    rw [writeRowBytes_getD_tailByte ncols get hm] <;>
    (have hm123 : ncols % 4 = 1 ∨ ncols % 4 = 2 ∨ ncols % 4 = 3 := by omega)
  all_goals rcases hm123 with hmx | hmx | hmx <;> rw [hmx]
  · rw [(by rfl : List.range 1 = [0]), List.map_cons, List.map_nil]
    simpa using (packPartialGroup_decode1 _ (hv (ncols - 1 + 0) (by omega))).2.2
  · rw [(by rfl : List.range 2 = [0, 1]), List.map_cons, List.map_cons, List.map_nil]
    simpa using (packPartialGroup_decode2 _ (hv (ncols - 2 + 0) (by omega))
      _ (hv (ncols - 2 + 1) (by omega))).2.2.2.2
  · rw [(by rfl : List.range 3 = [0, 1, 2]), List.map_cons, List.map_cons, List.map_cons,
      List.map_nil]
    simpa using (packPartialGroup_decode3 _ (hv (ncols - 3 + 0) (by omega))
      _ (hv (ncols - 3 + 1) (by omega)) _ (hv (ncols - 3 + 2) (by omega))).2.2.2.2.2.2
  · rw [(by rfl : List.range 1 = [0]), List.map_cons, List.map_nil]
    intro i hi
    have hi0 : i = 0 := by omega
    subst hi0
    obtain ⟨hd0, hr0, _⟩ := packPartialGroup_decode1 _ (hv (ncols - 1 + 0) (by omega))
    exact ⟨by simpa using hr0, by simpa using hd0⟩
  · rw [(by rfl : List.range 2 = [0, 1]), List.map_cons, List.map_cons, List.map_nil]
    intro i hi
    obtain ⟨hd0, hd1, hr0, hr1, _⟩ := packPartialGroup_decode2
      _ (hv (ncols - 2 + 0) (by omega)) _ (hv (ncols - 2 + 1) (by omega))
    have hi01 : i = 0 ∨ i = 1 := by omega
    rcases hi01 with rfl | rfl
    · exact ⟨by simpa using hr0, by simpa using hd0⟩
    · exact ⟨by simpa using hr1, by simpa using hd1⟩
  · rw [(by rfl : List.range 3 = [0, 1, 2]), List.map_cons, List.map_cons, List.map_cons,
      List.map_nil]
    intro i hi
    obtain ⟨hd0, hd1, hd2, hr0, hr1, hr2, _⟩ := packPartialGroup_decode3
      _ (hv (ncols - 3 + 0) (by omega)) _ (hv (ncols - 3 + 1) (by omega))
      _ (hv (ncols - 3 + 2) (by omega))
    have hi012 : i = 0 ∨ i = 1 ∨ i = 2 := by omega
    rcases hi012 with rfl | rfl | rfl
    · exact ⟨by simpa using hr0, by simpa using hd0⟩
    · exact ⟨by simpa using hr1, by simpa using hd1⟩
    · exact ⟨by simpa using hr2, by simpa using hd2⟩

/-- C8: under the entry preconditions the decode succeeds; the element for
matrix position `(row_start + i, col_start + j)` is pair `j % 4` of the file
byte at offset `3 + (row_start+i)*ceil(ncols/4) + col_start/4 + j/4` — byte
`j/4` of the `ceil((col_end-col_start)/4)` bytes fread for that row at
offset `3 + r*row_size + col_start/4` — and it is stored at output index
`(r - row_start)*strides[0] + (c - col_start)*strides[1] = i*s0 + j*s1`. -/
theorem C8_offsets_and_destinations (file : List Nat)
    (nrows ncols row_start col_start row_end col_end : Nat)
    (out0 : Nat → Nat) (s0 s1 : Nat)
    (h4 : col_start % 4 = 0) (hre : row_end ≤ nrows)
    (hcs : col_start ≤ col_end) (hce : col_end ≤ ncols)
    (hlen : 3 + nrows * ((ncols + 3) / 4) ≤ file.length)
    (hinj : ∀ i, i < row_end - row_start → ∀ j, j < col_end - col_start →
      ∀ i2, i2 < row_end - row_start → ∀ j2, j2 < col_end - col_start →
      i * s0 + j * s1 = i2 * s0 + j2 * s1 → i = i2 ∧ j = j2) :
    (read_bed_chunk (some file) nrows ncols row_start col_start row_end col_end out0 s0 s1).1
        = Except.ok () ∧
    ∀ i j, i < row_end - row_start → j < col_end - col_start →
      j / 4 < (col_end - col_start + 3) / 4 ∧
      (read_bed_chunk (some file) nrows ncols row_start col_start row_end col_end out0 s0 s1).2
          (i * s0 + j * s1)
        = (decodeByte (file.getD
              (3 + (row_start + i) * ((ncols + 3) / 4) + col_start / 4 + j / 4) 0)
            >>> (2 * (j % 4))) &&& 3 := by
  obtain ⟨hok, helem⟩ := read_bed_chunk_ok_elem file nrows ncols row_start col_start
    row_end col_end out0 s0 s1 h4 hre hcs hce hlen hinj
  refine ⟨hok, fun i j hi hj => ⟨by omega, ?_⟩⟩
  rw [helem i j hi hj, bedElement]
  have hmod : (col_start + j) % 4 = j % 4 := by omega
  have hidx : 3 + (row_start + i) * ((ncols + 3) / 4) + (col_start + j) / 4
      = 3 + (row_start + i) * ((ncols + 3) / 4) + col_start / 4 + j / 4 := by
    generalize (row_start + i) * ((ncols + 3) / 4) = P
    omega
  rw [hmod, hidx]

/-- Witness for `C1_write_read_roundtrip`: a concrete 2x5 matrix written
row-major and read back row-major; the element at row 1, column 3 is
recovered, and the remap round-trip holds at 2. -/
theorem C1_write_read_roundtrip_witness :
    (read_bed_chunk
        (some (write_bed_header 1 ++ write_bed_chunk 5 2 (fun i => (i * 7 + 3) % 4) 5 1))
        2 5 0 0 2 5 (fun _ => 9) 5 1).1 = Except.ok () ∧
    (read_bed_chunk
        (some (write_bed_header 1 ++ write_bed_chunk 5 2 (fun i => (i * 7 + 3) % 4) 5 1))
        2 5 0 0 2 5 (fun _ => 9) 5 1).2 (1 * 5 + 3 * 1)
      = (fun i => (i * 7 + 3) % 4) (1 * 5 + 3 * 1) ∧
    decode_remap (convert_remap 2) = 2 := by
  obtain ⟨h1, h2, h3⟩ := C1_write_read_roundtrip 2 5 (fun i => (i * 7 + 3) % 4) 5 1 5 1
    (fun _ => 9) 1 (fun r _ c _ => Nat.mod_lt _ (by decide)) (by intros; omega)
  exact ⟨h1, h2 1 (by decide) 3 (by decide), h3 2 (by decide)⟩

/-- Witness for `C6_partial_last_byte`: `ncols = 6` emits `2` bytes per row
and the decoded pair 1 of the final byte is the value of column 5. -/
theorem C6_partial_last_byte_witness :
    (writeRowBytes 6 (fun c => c % 4)).length = (6 + 3) / 4 ∧
    (6 + 3) / 4 = 6 / 4 + 1 ∧
    (writeRowBytes 6 (fun c => c % 4)).getD (6 / 4) 0 < 2 ^ (2 * (6 % 4)) ∧
    (decodeByte ((writeRowBytes 6 (fun c => c % 4)).getD (6 / 4) 0) >>> (2 * 1)) &&& 3
      = (fun c => c % 4) (6 - 6 % 4 + 1) := by
  obtain ⟨h1, h2, h3, h4⟩ := C6_partial_last_byte 6 (fun c => c % 4) (by decide) (by decide)
  exact ⟨h1, h2, h3, (h4 1 (by decide)).2⟩

/-- Witness for `C7_window_matches_full`: on a concrete complete 2x8 packed
file, the windowed call over rows `[1,2)`, columns `[4,8)` succeeds and its
element `(0,1)` equals element `(1,5)` of the full decode. -/
theorem C7_window_matches_full_witness :
    (read_bed_chunk (some [108, 27, 1, 228, 27, 39, 201]) 2 8 1 4 2 8 (fun _ => 99) 4 1).1
      = Except.ok () ∧
    (read_bed_chunk (some [108, 27, 1, 228, 27, 39, 201]) 2 8 1 4 2 8 (fun _ => 99) 4 1).2
        (0 * 4 + 1 * 1)
      = (read_bed_chunk (some [108, 27, 1, 228, 27, 39, 201]) 2 8 0 0 2 8 (fun _ => 7) 8 1).2
          ((1 + 0) * 8 + (4 + 1) * 1) := by
  obtain ⟨h1, h2, h3⟩ := C7_window_matches_full [108, 27, 1, 228, 27, 39, 201] 2 8 1 4 2 8
    (fun _ => 99) (fun _ => 7) 4 1 8 1 (by decide) (by decide) (by decide) (by decide)
    (by decide) (by intros; omega) (by intros; omega)
  exact ⟨h1, h3 0 1 (by decide) (by decide)⟩

/-- Witness for `C8_offsets_and_destinations`: same concrete 2x8 file,
window rows `[1,2)`, columns `[4,8)`: the element stored at output index
`0*4 + 1*1` is pair `1 % 4` of the file byte at offset
`3 + 1*2 + 4/4 + 1/4 = 6`. -/
theorem C8_offsets_and_destinations_witness :
    (read_bed_chunk (some [108, 27, 1, 228, 27, 39, 201]) 2 8 1 4 2 8 (fun _ => 5) 4 1).1
      = Except.ok () ∧
    (read_bed_chunk (some [108, 27, 1, 228, 27, 39, 201]) 2 8 1 4 2 8 (fun _ => 5) 4 1).2
        (0 * 4 + 1 * 1)
      = (decodeByte ([108, 27, 1, 228, 27, 39, 201].getD
            (3 + (1 + 0) * ((8 + 3) / 4) + 4 / 4 + 1 / 4) 0)
          >>> (2 * (1 % 4))) &&& 3 := by
  obtain ⟨hok, h⟩ := C8_offsets_and_destinations [108, 27, 1, 228, 27, 39, 201] 2 8 1 4 2 8
    (fun _ => 5) 4 1 (by decide) (by decide) (by decide) (by decide) (by decide)
    (by intros; omega)
  exact ⟨hok, (h 0 1 (by decide) (by decide)).2⟩
